import Mathlib

/-!
Verification of `src/jantar_filosofos.py` (dining philosophers with
parity-alternating fork acquisition).

The development embeds the program in three layers:

1. A sequential trace model of a single philosopher thread
   (`Filosofo.pegar_talheres`, `comer`, `devolver_talheres`, `run`):
   each lock operation, think and eat is recorded as an event, and the
   fallible points of the loop (the `acquire` of the second fork inside the
   `try`, and the body of `comer`) are driven by an explicit per-iteration
   plan saying whether they succeed or raise.
2. A static model of the table topology and of the driver
   `jantar_dos_filosofos` (lock creation, philosopher construction,
   start/join ordering, completion report), plus Python's thread-exception
   semantics for the process exit status.
3. An operational interleaving model of the N concurrent philosopher
   threads, with a step relation whose acquire transitions follow
   `threading.Lock` semantics (an acquire completes only when the lock is
   free), used for the mutual-exclusion and circular-wait claims.
-/

/-- The two forks a philosopher references: `talher_esquerdo` and
`talher_direito` in `Filosofo.__init__`. -/
inductive Talher
  | esquerdo
  | direito
deriving DecidableEq

/-- Observable events of one philosopher thread: lock operations on its two
forks, the `pensar` pause and the completed body of `comer`. -/
inductive Ev
  | think
  | acquire (t : Talher)
  | release (t : Talher)
  | eat
deriving DecidableEq

/-- The exceptions the loop in `Filosofo.run` can propagate: the second
`acquire` in `pegar_talheres` raising, or the body of `comer` raising. -/
inductive RunError
  | secondAcquireFailed
  | comerFailed
deriving DecidableEq

/-- Per-iteration outcome plan for the two fallible points of the loop body:
does the second `acquire` in `pegar_talheres` complete, and does `comer`
run to completion (reaching its `self.refeicoes += 1` line)? -/
structure IterPlan where
  secondOk : Bool
  comerOk : Bool

/-- A plan in which nothing ever raises: the ordinary blocking execution. -/
def allOkPlan : Nat → IterPlan := fun _ => ⟨true, true⟩

/-- First fork chosen in `Filosofo.pegar_talheres` (lines 53-60): even ids
pick `talher_esquerdo`, odd ids pick `talher_direito`. -/
def primeiro_talher (philosopher_id : Nat) : Talher :=
  if philosopher_id % 2 = 0 then Talher.esquerdo else Talher.direito

/-- Second fork chosen in `Filosofo.pegar_talheres` (lines 53-60): the one
not chosen first. -/
def segundo_talher (philosopher_id : Nat) : Talher :=
  if philosopher_id % 2 = 0 then Talher.direito else Talher.esquerdo

/-- `Filosofo.pegar_talheres` (lines 48-71): acquire the first fork
(blocking, always completes), then try to acquire the second; if that
raises, release the first fork and re-raise. Returns the emitted events and
the propagated exception, if any. -/
def pegar_talheres (philosopher_id : Nat) (secondOk : Bool) :
    List Ev × Option RunError :=
  let primeiro := primeiro_talher philosopher_id
  let segundo := segundo_talher philosopher_id
  if secondOk then
    ([Ev.acquire primeiro, Ev.acquire segundo], none)
  else
    ([Ev.acquire primeiro, Ev.release primeiro], some RunError.secondAcquireFailed)

/-- `Filosofo.comer` (lines 73-77): on completion the meal counter is
incremented by one and an `eat` event is observed; if the body raises
(print/sleep happen before the increment), the counter is unchanged. -/
def comer (refeicoes : Nat) (comerOk : Bool) : List Ev × Nat × Option RunError :=
  if comerOk then
    ([Ev.eat], refeicoes + 1, none)
  else
    ([], refeicoes, some RunError.comerFailed)

/-- `Filosofo.devolver_talheres` (lines 79-85): release the right fork,
then the left fork; never raises. -/
def devolver_talheres : List Ev :=
  [Ev.release Talher.direito, Ev.release Talher.esquerdo]

/-- The `while self.refeicoes < self.max_refeicoes` loop of `Filosofo.run`
(lines 94-101), started at meal count `refeicoes`. Per iteration:
`pensar()`, `pegar_talheres()` (whose exception exits the loop with the
first fork already released), then `comer()` under a `try/finally` that
always runs `devolver_talheres()`; an exception from `comer` exits the loop
after both releases. Returns the event trace, the final meal counter and
the exception propagated out of the loop (re-raised by the `except` clause
of `run`), if any. `max_refeicoes` is a Python `int`, modelled as `Int`. -/
def Filosofo.run (philosopher_id : Nat) (plan : Nat → IterPlan)
    (refeicoes : Nat) (max_refeicoes : Int) : List Ev × Nat × Option RunError :=
  if h : (refeicoes : Int) < max_refeicoes then
    match hp : pegar_talheres philosopher_id (plan refeicoes).secondOk with
    | (evs1, some e) =>
        (Ev.think :: evs1, refeicoes, some e)
    | (evs1, none) =>
        match hc : comer refeicoes (plan refeicoes).comerOk with
        | (evs2, ref2, some e) =>
            (Ev.think :: evs1 ++ evs2 ++ devolver_talheres, ref2, some e)
        | (evs2, ref2, none) =>
            let rest := Filosofo.run philosopher_id plan ref2 max_refeicoes
            (Ev.think :: evs1 ++ evs2 ++ devolver_talheres ++ rest.1,
              rest.2.1, rest.2.2)
  else
    ([], refeicoes, none)
termination_by (max_refeicoes - refeicoes).toNat
decreasing_by
  simp only [comer] at hc
  split at hc
  · cases hc
    omega
  · cases hc


def countEv (e : Ev) (l : List Ev) : Nat := l.countP (fun x => decide (x = e))

lemma pegar_talheres_ok (philosopher_id : Nat) (b : Bool) (evs : List Ev)
    (h : pegar_talheres philosopher_id b = (evs, none)) :
    b = true ∧ evs = [Ev.acquire (primeiro_talher philosopher_id),
      Ev.acquire (segundo_talher philosopher_id)] := by
  cases b <;> simp [pegar_talheres] at h <;> simp [h]

lemma pegar_talheres_fail (philosopher_id : Nat) (b : Bool) (evs : List Ev) (e : RunError)
    (h : pegar_talheres philosopher_id b = (evs, some e)) :
    b = false ∧ evs = [Ev.acquire (primeiro_talher philosopher_id),
      Ev.release (primeiro_talher philosopher_id)] ∧ e = RunError.secondAcquireFailed := by
  cases b <;> simp [pegar_talheres] at h <;> simp [h.1, h.2]

lemma comer_ok (refeicoes : Nat) (b : Bool) (evs : List Ev) (r : Nat)
    (h : comer refeicoes b = (evs, r, none)) :
    b = true ∧ evs = [Ev.eat] ∧ r = refeicoes + 1 := by
  cases b <;> simp [comer] at h <;> simp [h.1, h.2]

lemma comer_fail (refeicoes : Nat) (b : Bool) (evs : List Ev) (r : Nat) (e : RunError)
    (h : comer refeicoes b = (evs, r, some e)) :
    b = false ∧ evs = [] ∧ r = refeicoes ∧ e = RunError.comerFailed := by
  cases b <;> simp [comer] at h
  exact ⟨rfl, h.1, h.2.1.symm, h.2.2.symm⟩


lemma run_step_secondfail (philosopher_id : Nat) (plan : Nat → IterPlan)
    (refeicoes : Nat) (max_refeicoes : Int) (evs1 : List Ev) (e : RunError)
    (hlt : (refeicoes : Int) < max_refeicoes)
    (hp : pegar_talheres philosopher_id (plan refeicoes).secondOk = (evs1, some e)) :
    Filosofo.run philosopher_id plan refeicoes max_refeicoes =
      (Ev.think :: evs1, refeicoes, some e) := by
  rw [Filosofo.run]
  simp only [dif_pos hlt]
  split
  next evs1' e' hp' =>
    rw [hp] at hp'
    cases hp'
    rfl
  next evs1' hp' =>
    rw [hp] at hp'
    cases hp'

lemma run_step_comerfail (philosopher_id : Nat) (plan : Nat → IterPlan)
    (refeicoes : Nat) (max_refeicoes : Int) (evs1 evs2 : List Ev) (ref2 : Nat) (e : RunError)
    (hlt : (refeicoes : Int) < max_refeicoes)
    (hp : pegar_talheres philosopher_id (plan refeicoes).secondOk = (evs1, none))
    (hc : comer refeicoes (plan refeicoes).comerOk = (evs2, ref2, some e)) :
    Filosofo.run philosopher_id plan refeicoes max_refeicoes =
      (Ev.think :: evs1 ++ evs2 ++ devolver_talheres, ref2, some e) := by
  rw [Filosofo.run]
  simp only [dif_pos hlt]
  split
  next evs1' e' hp' =>
    rw [hp] at hp'
    cases hp'
  next evs1' hp' =>
    rw [hp] at hp'
    cases hp'
    split
    next evs2' ref2' e' hc' =>
      rw [hc] at hc'
      cases hc'
      rfl
    next evs2' ref2' hc' =>
      rw [hc] at hc'
      cases hc'

lemma run_step_ok (philosopher_id : Nat) (plan : Nat → IterPlan)
    (refeicoes : Nat) (max_refeicoes : Int) (evs1 evs2 : List Ev) (ref2 : Nat)
    (hlt : (refeicoes : Int) < max_refeicoes)
    (hp : pegar_talheres philosopher_id (plan refeicoes).secondOk = (evs1, none))
    (hc : comer refeicoes (plan refeicoes).comerOk = (evs2, ref2, none)) :
    Filosofo.run philosopher_id plan refeicoes max_refeicoes =
      (Ev.think :: evs1 ++ evs2 ++ devolver_talheres
          ++ (Filosofo.run philosopher_id plan ref2 max_refeicoes).1,
        (Filosofo.run philosopher_id plan ref2 max_refeicoes).2.1,
        (Filosofo.run philosopher_id plan ref2 max_refeicoes).2.2) := by
  rw [Filosofo.run]
  simp only [dif_pos hlt]
  split
  next evs1' e' hp' =>
    rw [hp] at hp'
    cases hp'
  next evs1' hp' =>
    rw [hp] at hp'
    cases hp'
    split
    next evs2' ref2' e' hc' =>
      rw [hc] at hc'
      cases hc'
    next evs2' ref2' hc' =>
      rw [hc] at hc'
      cases hc'
      rfl

lemma run_step_done (philosopher_id : Nat) (plan : Nat → IterPlan)
    (refeicoes : Nat) (max_refeicoes : Int)
    (hge : ¬ (refeicoes : Int) < max_refeicoes) :
    Filosofo.run philosopher_id plan refeicoes max_refeicoes = ([], refeicoes, none) := by
  rw [Filosofo.run]
  simp only [dif_neg hge]

lemma countEv_pair (philosopher_id : Nat) (t : Talher) :
    countEv (Ev.acquire t) [Ev.acquire (primeiro_talher philosopher_id),
        Ev.acquire (segundo_talher philosopher_id)]
      = countEv (Ev.release t) devolver_talheres := by
  by_cases h : philosopher_id % 2 = 0 <;>
    cases t <;>
      simp [countEv, primeiro_talher, segundo_talher, devolver_talheres, h]

lemma run_count_balanced (philosopher_id : Nat) (plan : Nat → IterPlan)
    (refeicoes : Nat) (max_refeicoes : Int) (t : Talher) :
    countEv (Ev.acquire t) (Filosofo.run philosopher_id plan refeicoes max_refeicoes).1 =
    countEv (Ev.release t) (Filosofo.run philosopher_id plan refeicoes max_refeicoes).1 := by
  induction refeicoes, max_refeicoes using Filosofo.run.induct philosopher_id plan with
  | case1 refeicoes max_refeicoes hlt evs1 e hp =>
      obtain ⟨hb, hevs, he⟩ := pegar_talheres_fail _ _ _ _ hp
      rw [run_step_secondfail _ _ _ _ _ _ hlt hp]
      subst hevs
      cases t <;> by_cases hpar : philosopher_id % 2 = 0 <;>
        simp [countEv, primeiro_talher, hpar]
  | case2 refeicoes max_refeicoes hlt evs1 hp evs2 ref2 e hc =>
      obtain ⟨hb, hevs⟩ := pegar_talheres_ok _ _ _ hp
      obtain ⟨hb2, hevs2, hr2, he⟩ := comer_fail _ _ _ _ _ hc
      rw [run_step_comerfail _ _ _ _ _ _ _ _ hlt hp hc]
      subst hevs hevs2
      simp only [List.cons_append, List.nil_append, countEv, List.countP_cons,
        List.countP_append]
      have := countEv_pair philosopher_id t
      simp only [countEv, List.countP_cons, List.countP_nil] at this
      cases t <;> simp_all [devolver_talheres] <;> omega
  | case3 refeicoes max_refeicoes hlt evs1 hp evs2 ref2 hc ih =>
      obtain ⟨hb, hevs⟩ := pegar_talheres_ok _ _ _ hp
      obtain ⟨hb2, hevs2, hr2⟩ := comer_ok _ _ _ _ hc
      rw [run_step_ok _ _ _ _ _ _ _ hlt hp hc]
      subst hevs hevs2
      simp only [List.cons_append, List.nil_append, countEv, List.countP_cons,
        List.countP_append] at ih ⊢
      have := countEv_pair philosopher_id t
      simp only [countEv, List.countP_cons, List.countP_nil] at this
      cases t <;> simp_all [devolver_talheres] <;> omega
  | case4 refeicoes max_refeicoes hge =>
      rw [run_step_done _ _ _ _ hge]
      simp [countEv]

/-- A plan whose second fork acquisition raises on the first iteration:
used to exercise the rollback branch of `pegar_talheres`. -/
def failPlan : Nat → IterPlan := fun _ => ⟨false, true⟩

lemma run_final_ge (philosopher_id : Nat) (plan : Nat → IterPlan)
    (refeicoes : Nat) (max_refeicoes : Int) :
    refeicoes ≤ (Filosofo.run philosopher_id plan refeicoes max_refeicoes).2.1 := by
  induction refeicoes, max_refeicoes using Filosofo.run.induct philosopher_id plan with
  | case1 refeicoes max_refeicoes hlt evs1 e hp =>
      rw [run_step_secondfail _ _ _ _ _ _ hlt hp]
  | case2 refeicoes max_refeicoes hlt evs1 hp evs2 ref2 e hc =>
      obtain ⟨_, _, hr2, _⟩ := comer_fail _ _ _ _ _ hc
      rw [run_step_comerfail _ _ _ _ _ _ _ _ hlt hp hc]
      simp only
      omega
  | case3 refeicoes max_refeicoes hlt evs1 hp evs2 ref2 hc ih =>
      obtain ⟨_, _, hr2⟩ := comer_ok _ _ _ _ hc
      rw [run_step_ok _ _ _ _ _ _ _ hlt hp hc]
      simp only
      omega
  | case4 refeicoes max_refeicoes hge =>
      rw [run_step_done _ _ _ _ hge]

lemma run_final_of_ok (philosopher_id : Nat) (plan : Nat → IterPlan)
    (refeicoes : Nat) (max_refeicoes : Int)
    (hok : (Filosofo.run philosopher_id plan refeicoes max_refeicoes).2.2 = none) :
    ((Filosofo.run philosopher_id plan refeicoes max_refeicoes).2.1 : Int) =
      if (refeicoes : Int) < max_refeicoes then max_refeicoes else (refeicoes : Int) := by
  induction refeicoes, max_refeicoes using Filosofo.run.induct philosopher_id plan with
  | case1 refeicoes max_refeicoes hlt evs1 e hp =>
      rw [run_step_secondfail _ _ _ _ _ _ hlt hp] at hok
      simp at hok
  | case2 refeicoes max_refeicoes hlt evs1 hp evs2 ref2 e hc =>
      rw [run_step_comerfail _ _ _ _ _ _ _ _ hlt hp hc] at hok
      simp at hok
  | case3 refeicoes max_refeicoes hlt evs1 hp evs2 ref2 hc ih =>
      obtain ⟨_, _, hr2⟩ := comer_ok _ _ _ _ hc
      rw [run_step_ok _ _ _ _ _ _ _ hlt hp hc] at hok ⊢
      simp only at hok ⊢
      have := ih hok
      rw [if_pos hlt]
      by_cases h2 : (ref2 : Int) < max_refeicoes
      · rw [if_pos h2] at this
        exact this
      · rw [if_neg h2] at this
        rw [this]
        omega
  | case4 refeicoes max_refeicoes hge =>
      rw [run_step_done _ _ _ _ hge]
      rw [if_neg hge]

lemma run_eat_count (philosopher_id : Nat) (plan : Nat → IterPlan)
    (refeicoes : Nat) (max_refeicoes : Int) :
    countEv Ev.eat (Filosofo.run philosopher_id plan refeicoes max_refeicoes).1 + refeicoes =
      (Filosofo.run philosopher_id plan refeicoes max_refeicoes).2.1 := by
  induction refeicoes, max_refeicoes using Filosofo.run.induct philosopher_id plan with
  | case1 refeicoes max_refeicoes hlt evs1 e hp =>
      obtain ⟨_, hevs, _⟩ := pegar_talheres_fail _ _ _ _ hp
      rw [run_step_secondfail _ _ _ _ _ _ hlt hp]
      subst hevs
      simp [countEv]
  | case2 refeicoes max_refeicoes hlt evs1 hp evs2 ref2 e hc =>
      obtain ⟨_, hevs⟩ := pegar_talheres_ok _ _ _ hp
      obtain ⟨_, hevs2, hr2, _⟩ := comer_fail _ _ _ _ _ hc
      rw [run_step_comerfail _ _ _ _ _ _ _ _ hlt hp hc]
      subst hevs hevs2 hr2
      simp [countEv, devolver_talheres]
  | case3 refeicoes max_refeicoes hlt evs1 hp evs2 ref2 hc ih =>
      obtain ⟨_, hevs⟩ := pegar_talheres_ok _ _ _ hp
      obtain ⟨_, hevs2, hr2⟩ := comer_ok _ _ _ _ hc
      rw [run_step_ok _ _ _ _ _ _ _ hlt hp hc]
      subst hevs hevs2
      simp only [countEv, List.countP_cons, List.countP_append,
        List.cons_append, List.nil_append] at ih ⊢
      simp [devolver_talheres] at ih ⊢
      omega
  | case4 refeicoes max_refeicoes hge =>
      rw [run_step_done _ _ _ _ hge]
      simp [countEv]

/-- C1: the acquisition order is a pure function of the philosopher's
immutable id: an even-id philosopher's successful `pegar_talheres` acquires
`talher_esquerdo` then `talher_direito`, an odd-id philosopher's acquires
`talher_direito` then `talher_esquerdo`. -/
theorem C1_parity_acquisition_order (philosopher_id : Nat) :
    (pegar_talheres philosopher_id true).1 =
      (if philosopher_id % 2 = 0
        then [Ev.acquire Talher.esquerdo, Ev.acquire Talher.direito]
        else [Ev.acquire Talher.direito, Ev.acquire Talher.esquerdo]) := by
  by_cases h : philosopher_id % 2 = 0 <;>
    simp [pegar_talheres, primeiro_talher, segundo_talher, h]

/-- C2: when the second `acquire` of an iteration raises after the first
fork was acquired, that iteration's trace is exactly
[think, acquire first, release first] — the first fork is released before
the failure propagates — the propagated error ends the loop (no further
events), and the meal counter is unchanged. -/
theorem C2_second_failure_rollback (philosopher_id : Nat) (plan : Nat → IterPlan)
    (refeicoes : Nat) (max_refeicoes : Int)
    (hlt : (refeicoes : Int) < max_refeicoes)
    (hfail : (plan refeicoes).secondOk = false) :
    Filosofo.run philosopher_id plan refeicoes max_refeicoes =
      ([Ev.think, Ev.acquire (primeiro_talher philosopher_id),
        Ev.release (primeiro_talher philosopher_id)], refeicoes,
        some RunError.secondAcquireFailed) := by
  have hp : pegar_talheres philosopher_id (plan refeicoes).secondOk =
      ([Ev.acquire (primeiro_talher philosopher_id),
        Ev.release (primeiro_talher philosopher_id)],
        some RunError.secondAcquireFailed) := by
    rw [hfail]
    simp [pegar_talheres]
  exact run_step_secondfail _ _ _ _ _ _ hlt hp

theorem C2_second_failure_rollback_witness :
    ((0 : Nat) : Int) < 3 ∧ (failPlan 0).secondOk = false ∧
      Filosofo.run 2 failPlan 0 3 =
        ([Ev.think, Ev.acquire (primeiro_talher 2),
          Ev.release (primeiro_talher 2)], 0, some RunError.secondAcquireFailed) :=
  ⟨by norm_num, rfl, C2_second_failure_rollback 2 failPlan 0 3 (by norm_num) rfl⟩

/-- C3: over a philosopher's full run, for every fork the number of
successful acquires equals the number of releases, for every plan of
second-acquire and `comer` outcomes — in particular on the paths where
`comer` raises, since `devolver_talheres` runs in the `finally`. -/
theorem C3_acquire_release_balance (philosopher_id : Nat) (plan : Nat → IterPlan)
    (max_refeicoes : Int) (t : Talher) :
    countEv (Ev.acquire t) (Filosofo.run philosopher_id plan 0 max_refeicoes).1 =
      countEv (Ev.release t) (Filosofo.run philosopher_id plan 0 max_refeicoes).1 :=
  run_count_balanced philosopher_id plan 0 max_refeicoes t

/-- C4: with target `K ≥ 0`, if the run terminates normally the final meal
counter is exactly `K`; the number of completed `comer` events equals the
final counter (each completed consumption increments it by one from 0);
and once the counter is at or past `K` the loop makes no further
acquisition attempts (empty trace). -/
theorem C4_target_cycles (philosopher_id : Nat) (plan : Nat → IterPlan) (K : Int)
    (hK : 0 ≤ K)
    (hok : (Filosofo.run philosopher_id plan 0 K).2.2 = none) :
    ((Filosofo.run philosopher_id plan 0 K).2.1 : Int) = K ∧
    countEv Ev.eat (Filosofo.run philosopher_id plan 0 K).1 =
      (Filosofo.run philosopher_id plan 0 K).2.1 ∧
    (∀ refeicoes : Nat, K ≤ (refeicoes : Int) →
      Filosofo.run philosopher_id plan refeicoes K = ([], refeicoes, none)) := by
  refine ⟨?_, ?_, ?_⟩
  · have h := run_final_of_ok philosopher_id plan 0 K hok
    by_cases h0 : ((0 : Nat) : Int) < K
    · rw [if_pos h0] at h
      exact h
    · rw [if_neg h0] at h
      rw [h]
      push_cast at h0 ⊢
      omega
  · have h := run_eat_count philosopher_id plan 0 K
    omega
  · intro r hr
    exact run_step_done _ _ _ _ (by push_cast; omega)

theorem C4_target_cycles_witness :
    (0 : Int) ≤ 2 ∧ (Filosofo.run 1 allOkPlan 0 2).2.2 = none ∧
      (((Filosofo.run 1 allOkPlan 0 2).2.1 : Int) = 2 ∧
        countEv Ev.eat (Filosofo.run 1 allOkPlan 0 2).1 =
          (Filosofo.run 1 allOkPlan 0 2).2.1 ∧
        (∀ refeicoes : Nat, (2 : Int) ≤ (refeicoes : Int) →
          Filosofo.run 1 allOkPlan refeicoes 2 = ([], refeicoes, none))) := by
  have hok : (Filosofo.run 1 allOkPlan 0 2).2.2 = none := by
    simp [Filosofo.run, allOkPlan, pegar_talheres, comer, devolver_talheres,
      primeiro_talher, segundo_talher]
  exact ⟨by norm_num, hok, C4_target_cycles 1 allOkPlan 2 (by norm_num) hok⟩

/-- C10: a philosopher constructed with `max_refeicoes ≤ 0` runs the loop
body zero times: no acquisition, release, think or eat events, normal
termination, and the meal counter still 0. -/
theorem C10_nonpositive_target_idle (philosopher_id : Nat) (plan : Nat → IterPlan)
    (max_refeicoes : Int) (hmax : max_refeicoes ≤ 0) :
    Filosofo.run philosopher_id plan 0 max_refeicoes = ([], 0, none) :=
  run_step_done _ _ _ _ (by push_cast; omega)

theorem C10_nonpositive_target_idle_witness :
    (0 : Int) ≤ 0 ∧ Filosofo.run 4 allOkPlan 0 0 = ([], 0, none) :=
  ⟨le_refl 0, C10_nonpositive_target_idle 4 allOkPlan 0 (le_refl 0)⟩

/-- `NUM_FILOSOFOS` in `jantar_dos_filosofos` (line 114). -/
def NUM_FILOSOFOS : Nat := 5

/-- The forks created at line 117 (`[threading.Lock() for _ in range(n)]`),
identified by their index in the list `talheres`. -/
def talheres (n : Nat) : List Nat := List.range n

/-- Index of the fork handed to philosopher `i` as `talher_esquerdo`
(line 123: `talheres[i]`). -/
def talher_esquerdo_idx (n i : Nat) : Nat := i

/-- Index of the fork handed to philosopher `i` as `talher_direito`
(line 124: `talheres[(i + 1) % NUM_FILOSOFOS]`). -/
def talher_direito_idx (n i : Nat) : Nat := (i + 1) % n

lemma succ_mod_eq (n i : Nat) (hi : i < n) :
    (i + 1) % n = if i + 1 = n then 0 else i + 1 := by
  split
  next h =>
    rw [h, Nat.mod_self]
  next h =>
    exact Nat.mod_eq_of_lt (by omega)

lemma pred_mod_eq (n r : Nat) (hn : 1 ≤ n) (hr : r < n) :
    (r + n - 1) % n = if r = 0 then n - 1 else r - 1 := by
  split
  next h =>
    subst h
    rw [Nat.zero_add]
    exact Nat.mod_eq_of_lt (by omega)
  next h =>
    have hrw : r + n - 1 = (r - 1) + n := by omega
    rw [hrw, Nat.add_mod_right]
    exact Nat.mod_eq_of_lt (by omega)

lemma shared_philosophers_set (n r : Nat) (hn : 2 ≤ n) (hr : r < n) :
    (Finset.range n).filter
        (fun i => talher_esquerdo_idx n i = r ∨ talher_direito_idx n i = r)
      = {r, (r + n - 1) % n} := by
  ext i
  simp only [Finset.mem_filter, Finset.mem_range, Finset.mem_insert,
    Finset.mem_singleton, talher_esquerdo_idx, talher_direito_idx]
  constructor
  · rintro ⟨hi, h | h⟩
    · exact Or.inl h
    · right
      rw [succ_mod_eq n i hi] at h
      rw [pred_mod_eq n r (by omega) hr]
      split at h <;> split <;> omega
  · rintro (h | h)
    · exact ⟨by omega, Or.inl h⟩
    · rw [pred_mod_eq n r (by omega) hr] at h
      have hi : i < n := by split at h <;> omega
      refine ⟨hi, Or.inr ?_⟩
      rw [succ_mod_eq n i hi]
      split at h <;> split <;> omega

/-- C5: the table constructs exactly `n` forks and hands philosopher `i`
the ordered pair `(talheres[i], talheres[(i + 1) % n])` as its
(left, right) forks; for `n ≥ 2` the two forks of a philosopher are
distinct, and every fork is shared by exactly two philosophers, so the
assignment forms a single ring. The source fixes `n = NUM_FILOSOFOS = 5`;
the construction loop itself is uniform in `n`. -/
theorem C5_ring_topology (n : Nat) (hn : 2 ≤ n) :
    (talheres n).length = n ∧
    (∀ i, i < n →
      (talher_esquerdo_idx n i, talher_direito_idx n i) = (i, (i + 1) % n)) ∧
    (∀ i, i < n → talher_esquerdo_idx n i ≠ talher_direito_idx n i) ∧
    (∀ r, r < n →
      ((Finset.range n).filter
          (fun i => talher_esquerdo_idx n i = r ∨ talher_direito_idx n i = r)).card
        = 2) := by
  refine ⟨List.length_range n, fun i _ => rfl, ?_, ?_⟩
  · intro i hi
    simp only [talher_esquerdo_idx, talher_direito_idx]
    rw [succ_mod_eq n i hi]
    split <;> omega
  · intro r hr
    rw [shared_philosophers_set n r hn hr]
    rw [Finset.card_pair]
    rw [pred_mod_eq n r (by omega) hr]
    split <;> omega

theorem C5_ring_topology_witness :
    2 ≤ NUM_FILOSOFOS ∧
    ((talheres NUM_FILOSOFOS).length = NUM_FILOSOFOS ∧
      (∀ i, i < NUM_FILOSOFOS →
        (talher_esquerdo_idx NUM_FILOSOFOS i, talher_direito_idx NUM_FILOSOFOS i)
          = (i, (i + 1) % NUM_FILOSOFOS)) ∧
      (∀ i, i < NUM_FILOSOFOS →
        talher_esquerdo_idx NUM_FILOSOFOS i ≠ talher_direito_idx NUM_FILOSOFOS i) ∧
      (∀ r, r < NUM_FILOSOFOS →
        ((Finset.range NUM_FILOSOFOS).filter
            (fun i => talher_esquerdo_idx NUM_FILOSOFOS i = r ∨
              talher_direito_idx NUM_FILOSOFOS i = r)).card = 2)) :=
  ⟨by norm_num [NUM_FILOSOFOS], C5_ring_topology NUM_FILOSOFOS (by norm_num [NUM_FILOSOFOS])⟩

/-- The default meal target of `Filosofo.__init__` (line 26:
`max_refeicoes=3`), used by the driver since it constructs each
`Filosofo(i, talher_esquerdo, talher_direito)` without passing one. -/
def DEFAULT_MAX_REFEICOES : Int := 3

/-- The ordered actions the driver `jantar_dos_filosofos` performs. -/
inductive DriverEv
  | createTalheres (count : Nat)
  | createFilosofo (philosopher_id esquerdo direito : Nat) (max_refeicoes : Int)
  | startThread (philosopher_id : Nat)
  | joinThread (philosopher_id : Nat)
  | reportDone
deriving DecidableEq

/-- `jantar_dos_filosofos` (lines 109-142) as its ordered action sequence:
create the `NUM_FILOSOFOS` locks, construct each `Filosofo` with its
`(talheres[i], talheres[(i + 1) % NUM_FILOSOFOS])` pair and the default
meal target, start every thread, join every thread, and only then report
completion. -/
def jantar_dos_filosofos : List DriverEv :=
  [DriverEv.createTalheres NUM_FILOSOFOS]
    ++ (List.range NUM_FILOSOFOS).map (fun i =>
        DriverEv.createFilosofo i (talher_esquerdo_idx NUM_FILOSOFOS i)
          (talher_direito_idx NUM_FILOSOFOS i) DEFAULT_MAX_REFEICOES)
    ++ (List.range NUM_FILOSOFOS).map DriverEv.startThread
    ++ (List.range NUM_FILOSOFOS).map DriverEv.joinThread
    ++ [DriverEv.reportDone]

/-- Position of the first occurrence of an action in the driver sequence. -/
def posOf (e : DriverEv) (l : List DriverEv) : Nat :=
  l.findIdx (fun x => decide (x = e))

/-- C6: the driver creates the table of `NUM_FILOSOFOS = 5` locks,
constructs the 5 philosophers bound to the pairs
`(talheres[i], talheres[(i + 1) % 5])` with the default target of 3 meals,
starts all 5 threads before joining any, joins all 5 threads, and reports
completion only after every join. (Genuine parallelism of the started
threads is the runtime's; the driver's own code is this sequence.) -/
theorem C6_driver_structure :
    NUM_FILOSOFOS = 5 ∧ DEFAULT_MAX_REFEICOES = 3 ∧
    DriverEv.createTalheres 5 ∈ jantar_dos_filosofos ∧
    (∀ i, i < 5 →
      DriverEv.createFilosofo i i ((i + 1) % 5) 3 ∈ jantar_dos_filosofos) ∧
    (∀ i, i < 5 → DriverEv.startThread i ∈ jantar_dos_filosofos) ∧
    (∀ i, i < 5 → DriverEv.joinThread i ∈ jantar_dos_filosofos) ∧
    (∀ i, i < 5 → ∀ j, j < 5 →
      posOf (DriverEv.startThread i) jantar_dos_filosofos <
        posOf (DriverEv.joinThread j) jantar_dos_filosofos) ∧
    (∀ j, j < 5 →
      posOf (DriverEv.joinThread j) jantar_dos_filosofos <
        posOf DriverEv.reportDone jantar_dos_filosofos) := by
  decide

/-- Outcome of one philosopher thread's `run`: it either returned normally
or ended with an uncaught exception (re-raised at line 104). -/
inductive ThreadOutcome
  | finished
  | raised
deriving DecidableEq

/-- Modelled Python `threading` semantics for `Thread.join()` (the code
itself contains no handling here): when a thread's `run()` ends with an
uncaught exception, the exception is passed to `threading.excepthook`,
which prints a traceback to stderr and discards it; `join()` in the main
thread returns `None` regardless and no exception propagates into the
joining thread. -/
def join_filosofo : ThreadOutcome → Except String Unit :=
  fun _ => Except.ok ()

/-- The `for filosofo in filosofos: filosofo.join()` loop (lines 137-138):
joins propagate an exception only if `join()` itself raises, which
`join_filosofo` never does. -/
def join_all : List ThreadOutcome → Except String Unit
  | [] => Except.ok ()
  | o :: rest =>
    match join_filosofo o with
    | Except.ok _ => join_all rest
    | Except.error e => Except.error e

/-- The `if __name__ == "__main__": jantar_dos_filosofos()` entry
(lines 145-146): CPython exits with status 0 when the top-level call
returns and with a non-zero status when it raises; the driver returns
normally exactly when the join loop does. -/
def processExitCode (outcomes : List ThreadOutcome) : Nat :=
  match join_all outcomes with
  | Except.ok _ => 0
  | Except.error _ => 1

lemma join_all_ok (outcomes : List ThreadOutcome) :
    join_all outcomes = Except.ok () := by
  induction outcomes with
  | nil => rfl
  | cons o rest ih => simp [join_all, join_filosofo, ih]

/-- C7 (refuting the claimed non-zero exit status): even when a philosopher
thread ends with an uncaught propagated failure, the process exit status
is 0 — evaluated at a run in which philosopher 0 raised and the other four
finished — and in fact the exit status is 0 for every combination of
thread outcomes, because a `threading.Thread`'s exception never reaches
the main thread through `join()`. -/
theorem C7_exit_code_zero_despite_failure :
    processExitCode [ThreadOutcome.raised, ThreadOutcome.finished,
      ThreadOutcome.finished, ThreadOutcome.finished, ThreadOutcome.finished] = 0 ∧
    (∀ outcomes : List ThreadOutcome, processExitCode outcomes = 0) := by
  refine ⟨rfl, fun outcomes => ?_⟩
  simp [processExitCode, join_all_ok]

/-- First fork index of philosopher `i` at a table of `n`, per the parity
rule of `pegar_talheres`: even ids start with `talheres[i]`, odd ids with
`talheres[(i + 1) % n]`. -/
def primeiro_talher_idx (n i : Nat) : Nat :=
  if i % 2 = 0 then talher_esquerdo_idx n i else talher_direito_idx n i

/-- Second fork index of philosopher `i` at a table of `n`: the one of its
two forks not acquired first. -/
def segundo_talher_idx (n i : Nat) : Nat :=
  if i % 2 = 0 then talher_direito_idx n i else talher_esquerdo_idx n i

/-- Control point of one philosopher thread between its lock operations:
`thinking` (holds nothing, before `pegar_talheres`), `hasFirst` (first
`acquire` returned, second pending), `hasBoth` (both held, inside
`comer`/`devolver_talheres` up to the first `release`), `hasLeft b`
(`talher_direito` released, `talher_esquerdo` still held; `b` records
whether `comer` completed), `dead` (thread exited, normally or by a
propagated exception). -/
inductive Phase
  | thinking
  | hasFirst
  | hasBoth
  | hasLeft (comerOk : Bool)
  | dead
deriving DecidableEq

/-- Instantaneous state of the simulation: each philosopher's control point
and meal counter. Fork ownership is derived from the phases by `holdsB`. -/
structure SimState (n : Nat) where
  phase : Fin n → Phase
  refeicoes : Fin n → Nat

/-- Does philosopher `i` hold fork `f` in state `s`? Derived from the
locks `i` has acquired and not yet released at its control point. -/
def holdsB (n : Nat) (s : SimState n) (i : Fin n) (f : Nat) : Bool :=
  match s.phase i with
  | Phase.thinking => false
  | Phase.hasFirst => f == primeiro_talher_idx n i
  | Phase.hasBoth =>
      f == talher_esquerdo_idx n i || f == talher_direito_idx n i
  | Phase.hasLeft _ => f == talher_esquerdo_idx n i
  | Phase.dead => false

/-- A `threading.Lock` is free exactly when no thread has acquired it and
not yet released it. -/
def forkFree (n : Nat) (s : SimState n) (f : Nat) : Prop :=
  ∀ i : Fin n, holdsB n s i f = false

/-- Interleaving semantics of the `NUM_FILOSOFOS` philosopher threads: one
thread moves between two of its lock operations. `acquire` completes only
on a free lock (`threading.Lock` semantics); a blocked thread simply has no
enabled `acquire` transition. `failSecond` is the defensive branch of
`pegar_talheres` (second `acquire` raises: first fork released, thread
dies); `comerFail*` is an exception inside `comer` (releases still run via
`finally`, then the thread dies). Meal counters increment exactly when
`comer` completes. -/
inductive Step (n : Nat) (max_refeicoes : Int) : SimState n → SimState n → Prop
  | acquireFirst (s : SimState n) (i : Fin n)
      (hph : s.phase i = Phase.thinking)
      (hmeals : (s.refeicoes i : Int) < max_refeicoes)
      (hfree : forkFree n s (primeiro_talher_idx n i)) :
      Step n max_refeicoes s ⟨Function.update s.phase i Phase.hasFirst, s.refeicoes⟩
  | terminate (s : SimState n) (i : Fin n)
      (hph : s.phase i = Phase.thinking)
      (hmeals : ¬ (s.refeicoes i : Int) < max_refeicoes) :
      Step n max_refeicoes s ⟨Function.update s.phase i Phase.dead, s.refeicoes⟩
  | acquireSecond (s : SimState n) (i : Fin n)
      (hph : s.phase i = Phase.hasFirst)
      (hfree : forkFree n s (segundo_talher_idx n i)) :
      Step n max_refeicoes s ⟨Function.update s.phase i Phase.hasBoth, s.refeicoes⟩
  | failSecond (s : SimState n) (i : Fin n)
      (hph : s.phase i = Phase.hasFirst) :
      Step n max_refeicoes s ⟨Function.update s.phase i Phase.dead, s.refeicoes⟩
  | comerOkReleaseDireito (s : SimState n) (i : Fin n)
      (hph : s.phase i = Phase.hasBoth) :
      Step n max_refeicoes s
        ⟨Function.update s.phase i (Phase.hasLeft true),
          Function.update s.refeicoes i (s.refeicoes i + 1)⟩
  | comerFailReleaseDireito (s : SimState n) (i : Fin n)
      (hph : s.phase i = Phase.hasBoth) :
      Step n max_refeicoes s
        ⟨Function.update s.phase i (Phase.hasLeft false), s.refeicoes⟩
  | releaseEsquerdo (s : SimState n) (i : Fin n) (b : Bool)
      (hph : s.phase i = Phase.hasLeft b) :
      Step n max_refeicoes s
        ⟨Function.update s.phase i (if b then Phase.thinking else Phase.dead),
          s.refeicoes⟩

/-- Start of the simulation: every philosopher thread is about to enter its
loop with meal counter 0 and no lock held. -/
def initState (n : Nat) : SimState n :=
  ⟨fun _ => Phase.thinking, fun _ => 0⟩

/-- States reachable by interleaving the philosopher threads from the
start of the simulation. -/
inductive Reach (n : Nat) (max_refeicoes : Int) : SimState n → Prop
  | init : Reach n max_refeicoes (initState n)
  | step (s s' : SimState n) :
      Reach n max_refeicoes s → Step n max_refeicoes s s' →
      Reach n max_refeicoes s'

/-- Mutual exclusion on each fork: no fork is held by two philosophers. -/
def MutexOK (n : Nat) (s : SimState n) : Prop :=
  ∀ i j : Fin n, ∀ f : Nat,
    holdsB n s i f = true → holdsB n s j f = true → i = j

lemma holdsB_update_ne (n : Nat) (s : SimState n) (i : Fin n) (p : Phase)
    (m : Fin n → Nat) (j : Fin n) (f : Nat) (hij : j ≠ i) :
    holdsB n ⟨Function.update s.phase i p, m⟩ j f = holdsB n s j f := by
  simp only [holdsB, Function.update_noteq hij]

lemma holdsB_update_self (n : Nat) (s : SimState n) (i : Fin n) (p : Phase)
    (m : Fin n → Nat) (f : Nat) :
    holdsB n ⟨Function.update s.phase i p, m⟩ i f =
      holdsB n ⟨fun _ => p, m⟩ i f := by
  simp only [holdsB, Function.update_same]

lemma holds_pair_comm (n : Nat) (i : Fin n) (f : Nat) :
    (f == talher_esquerdo_idx n i || f == talher_direito_idx n i)
      = (f == primeiro_talher_idx n i || f == segundo_talher_idx n i) := by
  by_cases h : (i : Nat) % 2 = 0 <;>
    simp [primeiro_talher_idx, segundo_talher_idx, h, Bool.or_comm]

lemma mutex_preserved_of_sub (n : Nat) (s : SimState n) (i : Fin n) (p : Phase)
    (m : Fin n → Nat)
    (hsub : ∀ f, holdsB n ⟨Function.update s.phase i p, m⟩ i f = true →
      holdsB n s i f = true)
    (hmx : MutexOK n s) : MutexOK n ⟨Function.update s.phase i p, m⟩ := by
  intro j k f hj hk
  apply hmx j k f
  · by_cases hji : j = i
    · subst hji
      exact hsub f hj
    · rwa [holdsB_update_ne n s i p m j f hji] at hj
  · by_cases hki : k = i
    · subst hki
      exact hsub f hk
    · rwa [holdsB_update_ne n s i p m k f hki] at hk

lemma mutex_preserved (n : Nat) (max_refeicoes : Int) (s s' : SimState n)
    (hstep : Step n max_refeicoes s s') (hmx : MutexOK n s) : MutexOK n s' := by
  cases hstep with
  | acquireFirst i hph hmeals hfree =>
      intro j k f hj hk
      by_cases hji : j = i
      · subst hji
        rw [holdsB_update_self] at hj
        simp only [holdsB] at hj
        have hf : f = primeiro_talher_idx n j := beq_iff_eq.mp hj
        by_cases hki : k = j
        · exact hki.symm
        · rw [holdsB_update_ne n s j Phase.hasFirst s.refeicoes k f hki] at hk
          rw [hf] at hk
          exact absurd hk (by simp [hfree k])
      · by_cases hki : k = i
        · subst hki
          rw [holdsB_update_self] at hk
          simp only [holdsB] at hk
          have hf : f = primeiro_talher_idx n k := beq_iff_eq.mp hk
          rw [holdsB_update_ne n s k Phase.hasFirst s.refeicoes j f hji] at hj
          rw [hf] at hj
          exact absurd hj (by simp [hfree j])
        · rw [holdsB_update_ne n s i Phase.hasFirst s.refeicoes j f hji] at hj
          rw [holdsB_update_ne n s i Phase.hasFirst s.refeicoes k f hki] at hk
          exact hmx j k f hj hk
  | terminate i hph hmeals =>
      apply mutex_preserved_of_sub n s i Phase.dead s.refeicoes _ hmx
      intro f hf
      rw [holdsB_update_self] at hf
      simp [holdsB] at hf
  | acquireSecond i hph hfree =>
      intro j k f hj hk
      by_cases hji : j = i
      · subst hji
        rw [holdsB_update_self] at hj
        simp only [holdsB] at hj
        rw [holds_pair_comm] at hj
        rcases Bool.or_eq_true_iff.mp hj with hfst | hsnd
        · have hf : f = primeiro_talher_idx n j := beq_iff_eq.mp hfst
          have hjold : holdsB n s j f = true := by
            simp [holdsB, hph, hf]
          by_cases hki : k = j
          · exact hki.symm
          · rw [holdsB_update_ne n s j Phase.hasBoth s.refeicoes k f hki] at hk
            exact hmx j k f hjold hk
        · have hf : f = segundo_talher_idx n j := beq_iff_eq.mp hsnd
          by_cases hki : k = j
          · exact hki.symm
          · rw [holdsB_update_ne n s j Phase.hasBoth s.refeicoes k f hki] at hk
            rw [hf] at hk
            exact absurd hk (by simp [hfree k])
      · by_cases hki : k = i
        · subst hki
          rw [holdsB_update_self] at hk
          simp only [holdsB] at hk
          rw [holds_pair_comm] at hk
          rw [holdsB_update_ne n s k Phase.hasBoth s.refeicoes j f hji] at hj
          rcases Bool.or_eq_true_iff.mp hk with hfst | hsnd
          · have hf : f = primeiro_talher_idx n k := beq_iff_eq.mp hfst
            have hkold : holdsB n s k f = true := by
              simp [holdsB, hph, hf]
            exact hmx j k f hj hkold
          · have hf : f = segundo_talher_idx n k := beq_iff_eq.mp hsnd
            rw [hf] at hj
            exact absurd hj (by simp [hfree j])
        · rw [holdsB_update_ne n s i Phase.hasBoth s.refeicoes j f hji] at hj
          rw [holdsB_update_ne n s i Phase.hasBoth s.refeicoes k f hki] at hk
          exact hmx j k f hj hk
  | failSecond i hph =>
      apply mutex_preserved_of_sub n s i Phase.dead s.refeicoes _ hmx
      intro f hf
      rw [holdsB_update_self] at hf
      simp [holdsB] at hf
  | comerOkReleaseDireito i hph =>
      apply mutex_preserved_of_sub n s i (Phase.hasLeft true) _ _ hmx
      intro f hf
      rw [holdsB_update_self] at hf
      simp only [holdsB] at hf
      simp [holdsB, hph, hf]
  | comerFailReleaseDireito i hph =>
      apply mutex_preserved_of_sub n s i (Phase.hasLeft false) _ _ hmx
      intro f hf
      rw [holdsB_update_self] at hf
      simp only [holdsB] at hf
      simp [holdsB, hph, hf]
  | releaseEsquerdo i b hph =>
      apply mutex_preserved_of_sub n s i (if b then Phase.thinking else Phase.dead) _ _ hmx
      intro f hf
      rw [holdsB_update_self] at hf
      cases b <;> simp [holdsB] at hf

lemma mutex_init (n : Nat) : MutexOK n (initState n) := by
  intro i j f hi _
  simp [holdsB, initState] at hi

lemma reach_mutex (n : Nat) (max_refeicoes : Int) (s : SimState n)
    (hreach : Reach n max_refeicoes s) : MutexOK n s := by
  induction hreach with
  | init => exact mutex_init n
  | step s s' _ hstep ih => exact mutex_preserved n max_refeicoes s s' hstep ih

lemma exists_first_clash (n : Nat) (hn : 2 ≤ n) :
    ∃ i j : Fin n, i ≠ j ∧ primeiro_talher_idx n i = primeiro_talher_idx n j := by
  rcases eq_or_lt_of_le hn with h2 | h3
  · subst h2
    exact ⟨1, 0, by decide, by decide⟩
  · have h2n : 2 % n = 2 := Nat.mod_eq_of_lt h3
    refine ⟨⟨1, by omega⟩, ⟨2, by omega⟩, ?_, ?_⟩
    · simp [Fin.ext_iff]
    · simp [primeiro_talher_idx, talher_esquerdo_idx, talher_direito_idx, h2n]

/-- C9: mutual exclusion — in every reachable state of the interleaved
simulation, a fork is held by at most one philosopher. The acquire
transitions follow `threading.Lock` semantics (only a free lock can be
acquired), and the derived ownership map never assigns one fork to two
philosophers. -/
theorem C9_mutual_exclusion (n : Nat) (max_refeicoes : Int) (s : SimState n)
    (hreach : Reach n max_refeicoes s) (i j : Fin n) (f : Nat)
    (hi : holdsB n s i f = true) (hj : holdsB n s j f = true) : i = j :=
  reach_mutex n max_refeicoes s hreach i j f hi hj

/-- A state of the two-philosopher table in which philosopher 0 has just
acquired its first fork: used to exhibit a reachable state with a held
fork. -/
def oneHoldState : SimState 2 :=
  ⟨Function.update (initState 2).phase 0 Phase.hasFirst, (initState 2).refeicoes⟩

theorem C9_mutual_exclusion_witness :
    Reach 2 3 oneHoldState ∧
    holdsB 2 oneHoldState 0 (primeiro_talher_idx 2 0) = true ∧
    (0 : Fin 2) = 0 := by
  have hreach : Reach 2 3 oneHoldState :=
    Reach.step (initState 2) oneHoldState Reach.init
      (Step.acquireFirst (initState 2) 0 rfl (by norm_num [initState])
        (fun i => rfl))
  have hh : holdsB 2 oneHoldState 0 (primeiro_talher_idx 2 0) = true := by decide
  exact ⟨hreach, hh,
    C9_mutual_exclusion 2 3 oneHoldState hreach 0 0 (primeiro_talher_idx 2 0) hh hh⟩

/-- C8: the circular-wait deadlock configuration is unreachable — for any
table of `n ≥ 2` philosophers, no reachable state of the simulation has
every philosopher holding its first fork while waiting on its second
(every philosopher in phase `hasFirst`). Under the parity-alternating
order two philosophers share the same first fork, which mutual exclusion
forbids; this is the "everyone holds one and waits forever on the other"
pattern the claim rules out. -/
theorem C8_no_circular_wait (n : Nat) (max_refeicoes : Int) (s : SimState n)
    (hn : 2 ≤ n) (hreach : Reach n max_refeicoes s) :
    ¬ (∀ i : Fin n, s.phase i = Phase.hasFirst) := by
  intro hall
  have hmx := reach_mutex n max_refeicoes s hreach
  obtain ⟨i, j, hij, hf⟩ := exists_first_clash n hn
  have hi : holdsB n s i (primeiro_talher_idx n i) = true := by
    simp [holdsB, hall i]
  have hj : holdsB n s j (primeiro_talher_idx n i) = true := by
    rw [hf]
    simp [holdsB, hall j]
  exact hij (hmx i j (primeiro_talher_idx n i) hi hj)

theorem C8_no_circular_wait_witness :
    2 ≤ 2 ∧ Reach 2 3 (initState 2) ∧
    ¬ (∀ i : Fin 2, (initState 2).phase i = Phase.hasFirst) :=
  ⟨le_refl 2, Reach.init,
    C8_no_circular_wait 2 3 (initState 2) (le_refl 2) Reach.init⟩
